import Mathlib

/-!
Verification of the Smart-Study-Scheduler core (src/app.py): the
`smart_generate_plan` allocator, the per-day progress ledger with its
complete / skip (carry-forward) operations, and the streak counter.

Python floats are modelled as rationals (`ℚ`), Python dicts keyed by
subject name as insertion-ordered association lists with last-write-wins
semantics, and `round(x, 2)` as `round2` below.
-/

namespace App

/-- A task of a day plan: `{"subject": ..., "hours": ..., "note": ...}`. -/
structure Task where
  subject : String
  hours : ℚ
  note : String
deriving DecidableEq

/-- A subject: `{"name": ..., "difficulty": ...}`; the difficulty key may be
absent (`s.get("difficulty", "medium")` in the source). -/
structure Subject where
  name : String
  difficulty : Option String
deriving DecidableEq

/-- Python `round(x, 2)`. Ties are rounded half-up here while CPython rounds
half-to-even; both satisfy `|round2 q - q| ≤ 1/200`, which is all the proofs
use. -/
def round2 (q : ℚ) : ℚ := (round (q * 100) : ℤ) / 100

/-- The fixed tip list of `pick_focus_note`. -/
def tips : List String :=
  ["Focus on problem solving",
   "Review weak topics first",
   "Practice previous questions",
   "Do a short self-quiz",
   "Summarize key formulas",
   "Teach this topic to an imaginary friend"]

/-- Python `pick_focus_note`: index by the sum of the character codes of the name
modulo the number of tips. -/
def pick_focus_note (subject_name : String) : String :=
  tips.getD ((subject_name.data.map Char.toNat).sum % tips.length) ""

/-- The difficulty weight table of `smart_generate_plan`. -/
def weights : List (String × ℚ) := [("easy", 1), ("medium", 3/2), ("hard", 5/2)]

/-- The urgency multiplier: seeded at 1.0 and raised when an exam date is
supplied.  `examDelta` is `(exam_date - datetime.utcnow()).days` computed at
the call boundary; the source takes `max(..., 0)` of it. -/
def urgencyOf (examDelta : Option ℤ) : ℚ :=
  match examDelta with
  | none => 1
  | some delta =>
    let d : ℤ := max delta 0
    if d ≤ 7 then 1 + ((8 - d : ℤ) : ℚ) * (12/100)
    else if d ≤ 30 then 1 + ((30 - d : ℤ) : ℚ) * (3/100)
    else 1

/-- One subject's score: `weights.get(s.get("difficulty","medium"), 1.5)`
times urgency times the 1.15 focus boost. -/
def scoreOf (s : Subject) (examDelta : Option ℤ) (focus : List String) : ℚ :=
  let w := (weights.lookup (s.difficulty.getD "medium")).getD (3/2)
  let boost : ℚ := if s.name ∈ focus then 115/100 else 1
  w * urgencyOf examDelta * boost

/-- The scores list `[(s["name"], w * urgency * boost) for s in subjects]`. -/
def scoresFor (subjects : List Subject) (examDelta : Option ℤ)
    (focus : List String) : List (String × ℚ) :=
  subjects.map (fun s => (s.name, scoreOf s examDelta focus))

/-- A Python dict with string keys and float values, as an
insertion-ordered association list. -/
abbrev Dict := List (String × ℚ)

/-- Dict write `m[k] = v`: overwrite in place if present, else append. -/
def dictInsert (m : Dict) (k : String) (v : ℚ) : Dict :=
  if m.any (fun p => p.1 = k) then m.map (fun p => if p.1 = k then (k, v) else p)
  else m ++ [(k, v)]

/-- Dict read `m.get(k, d)`. -/
def dictGet (m : Dict) (k : String) (d : ℚ) : ℚ :=
  ((m.find? (fun p => p.1 = k)).map Prod.snd).getD d

/-- Dict overwrite of an existing key (used for `subj_totals[name] -= alloc`,
where the key is always present). -/
def dictSet (m : Dict) (k : String) (v : ℚ) : Dict :=
  m.map (fun p => if p.1 = k then (k, v) else p)

/-- The dict comprehension `{name: max(0.5, round(score/total_score*total_hours, 2)) for ...}`. -/
def subjTotals (scores : List (String × ℚ)) (total_score total_hours : ℚ) : Dict :=
  scores.foldl (fun m p => dictInsert m p.1 (max (1/2) (round2 (p.2 / total_score * total_hours)))) []

/-- The inner `for name, _ in subject_order` loop of one day: returns the
tasks appended for this day, the remaining day budget, and the updated
`subj_totals`. -/
def processSubjects (order : List (String × ℚ)) (remaining : ℚ) (totals : Dict)
    (remaining_days : ℤ) : List Task × ℚ × Dict :=
  match order with
  | [] => ([], remaining, totals)
  | (name, _) :: rest =>
    let st := dictGet totals name 0
    if st ≤ 1/100 then processSubjects rest remaining totals remaining_days
    else
      let ideal_alloc := st / ((remaining_days : ℤ) : ℚ)
      let alloc := round2 (min remaining (max (1/4) ideal_alloc))
      if alloc ≤ 0 then processSubjects rest remaining totals remaining_days
      else
        let task : Task := ⟨name, alloc, pick_focus_note name⟩
        let remaining' := remaining - alloc
        let totals' := dictSet totals name (st - alloc)
        if remaining' ≤ 1/100 then ([task], remaining', totals')
        else
          let out := processSubjects rest remaining' totals' remaining_days
          (task :: out.1, out.2.1, out.2.2)

/-- One day of the planner loop: run the subject scan, then append the
closing "Review & Breaks" task when budget is left over. -/
def dayTasks (order : List (String × ℚ)) (hours_per_day : ℚ) (totals : Dict)
    (remaining_days : ℤ) : List Task × Dict :=
  let out := processSubjects order hours_per_day totals remaining_days
  let tasks :=
    if out.2.1 > 1/100 then
      out.1 ++ [⟨"Review & Breaks", round2 out.2.1, "Light review / short breaks"⟩]
    else out.1
  (tasks, out.2.2)

/-- Decimal digit characters of a natural number, big-endian; fuel-driven so
that it reduces in the kernel. -/
def natCharsAux : ℕ → ℕ → List Char
  | 0, _ => []
  | fuel + 1, n =>
    if n = 0 then [] else natCharsAux fuel (n / 10) ++ [Nat.digitChar (n % 10)]

/-- Decimal representation of a natural number, as Python `str` prints it. -/
def natChars (n : ℕ) : List Char := if n = 0 then ['0'] else natCharsAux n n

/-- The day label `f"Day {d}"`. -/
def dayLabel (d : ℕ) : String := String.mk ('D' :: 'a' :: 'y' :: ' ' :: natChars d)

/-- The outer `for d in range(1, int(days)+1)` loop, with `subj_totals`
threaded through the days. -/
def daysLoop (order : List (String × ℚ)) (hours_per_day : ℚ) (days : ℕ) :
    List ℕ → Dict → List (String × List Task)
  | [], _ => []
  | d :: rest, totals =>
    let remaining_days : ℤ := max 1 ((days : ℤ) - (d : ℤ) + 1)
    let out := dayTasks order hours_per_day totals remaining_days
    (dayLabel d, out.1) :: daysLoop order hours_per_day days rest out.2

/-- Insert into a sorted list, before the first element `b` with `le a b`;
ties keep the inserted (originally earlier) element first. -/
def sortedInsert (le : String × ℚ → String × ℚ → Bool) (a : String × ℚ) :
    List (String × ℚ) → List (String × ℚ)
  | [] => [a]
  | b :: l => if le a b then a :: b :: l else b :: sortedInsert le a l

/-- Stable insertion sort; extensionally the stable sort Python's `sorted`
performs, written structurally so it reduces in the kernel. -/
def stableSort (le : String × ℚ → String × ℚ → Bool) :
    List (String × ℚ) → List (String × ℚ)
  | [] => []
  | a :: l => sortedInsert le a (stableSort le l)

/-- The planner from `subj_totals` on: sort subjects by descending total
(stable, as Python's `sorted` with key `-x[1]`), run the day loop, then
filter each day to strictly positive hours. -/
def planFromTotals (subj_totals : Dict) (hours_per_day : ℚ) (days : ℕ) :
    List (String × List Task) :=
  let subject_order := stableSort (fun a b => decide (b.2 ≤ a.2)) subj_totals
  (daysLoop subject_order hours_per_day days ((List.range days).map (· + 1)) subj_totals).map
    (fun p => (p.1, p.2.filter (fun t => decide (t.hours > 0))))

/-- The planner from the scores list on: `total_score = sum(...) or 1.0`,
`total_hours = hours_per_day * days`, then the per-subject totals. -/
def planFromScores (scores : List (String × ℚ)) (hours_per_day : ℚ) (days : ℕ) :
    List (String × List Task) :=
  let t := (scores.map Prod.snd).sum
  let total_score := if t = 0 then 1 else t
  planFromTotals (subjTotals scores total_score (hours_per_day * (days : ℚ))) hours_per_day days

/-- The planner `smart_generate_plan(subjects, hours_per_day, days, exam_date, focus_subjects)`.
The plan dict is an association list from day label to task list. -/
def smart_generate_plan (subjects : List Subject) (hours_per_day : ℚ) (days : ℕ)
    (examDelta : Option ℤ) (focus : List String) : List (String × List Task) :=
  planFromScores (scoresFor subjects examDelta focus) hours_per_day days

/-- Total hours of a task list. -/
def tasksHours (ts : List Task) : ℚ := (ts.map Task.hours).sum

/-- Total hours allocated to one subject across all days of a plan. -/
def subjectShare (plan : List (String × List Task)) (name : String) : ℚ :=
  (plan.map (fun p => tasksHours (p.2.filter (fun t => decide (t.subject = name))))).sum

/-- Spec-side base weight table (§4.1 of the spec): easy = 1.0,
medium = 1.5, hard = 2.5. -/
def specBaseWeight (difficulty : String) : ℚ :=
  if difficulty = "easy" then 1
  else if difficulty = "medium" then 3/2
  else if difficulty = "hard" then 5/2
  else 0

/-- Spec-side urgency (§4.1): seeded at 1.0; with `d = max(days until exam, 0)`,
add `(8 − d) × 0.12` when `d ≤ 7`, add `(30 − d) × 0.03` when `7 < d ≤ 30`,
stay 1.0 when `d > 30` or no exam date is supplied. -/
def specUrgency (examDelta : Option ℤ) : ℚ :=
  match examDelta with
  | none => 1
  | some delta =>
    let d : ℤ := max delta 0
    1 + (if d ≤ 7 then ((8 - d : ℤ) : ℚ) * (12/100) else 0)
      + (if 7 < d ∧ d ≤ 30 then ((30 - d : ℤ) : ℚ) * (3/100) else 0)

/-- Spec-side priority boost (§4.1): ×1.15 iff the name is in the focus set. -/
def specBoost (name : String) (focus : List String) : ℚ :=
  if name ∈ focus then 115/100 else 1

/-- Rewrite a subject whose difficulty is missing or unknown to an explicit
`"medium"`; known difficulties are left alone. -/
def normalizeDifficulty (s : Subject) : Subject :=
  match s.difficulty with
  | none => { s with difficulty := some "medium" }
  | some v =>
    if v = "easy" ∨ v = "medium" ∨ v = "hard" then s
    else { s with difficulty := some "medium" }

/-- Numeric value of a decimal digit character. -/
def digitVal (c : Char) : ℕ := c.toNat - 48

/-- Parse a run of ASCII decimal digits, as Python `int` does on a clean
token (CPython additionally accepts underscores and non-ASCII decimal
digits; labels built by this program never contain those). -/
def parseNatChars (l : List Char) : Option ℕ :=
  if l ≠ [] ∧ l.all Char.isDigit = true then
    some (l.foldl (fun a c => 10 * a + digitVal c) 0)
  else none

/-- Decimal character representation of an integer, as Python `str` prints
it. -/
def intChars (m : ℤ) : List Char :=
  if m < 0 then '-' :: natChars m.natAbs else natChars m.toNat

/-- Parse an optionally signed decimal integer token, as Python `int`. -/
def parseIntChars (l : List Char) : Option ℤ :=
  if l.head? = some '-' then (parseNatChars l.tail).map (fun n => -(Int.ofNat n))
  else if l.head? = some '+' then (parseNatChars l.tail).map (fun n => Int.ofNat n)
  else (parseNatChars l).map (fun n => Int.ofNat n)

/-- Split a character list at every separator satisfying `p`, keeping empty
chunks (the splitting step of Python `str.split()`). -/
def splitP (p : Char → Bool) : List Char → List (List Char)
  | [] => [[]]
  | c :: cs =>
    match splitP p cs with
    | [] => [[c]]
    | t :: ts => if p c then [] :: t :: ts else (c :: t) :: ts

/-- Python `day.split()`: split on whitespace and drop empty chunks. -/
def tokens (l : List Char) : List (List Char) :=
  (splitP (fun c => c.isWhitespace) l).filter (fun t => decide (t ≠ []))

/-- The `next_label` computation of the skip handler:
`f"Day {int(day.split()[1]) + 1}"`, falling back to
`day + " (tasks appended)"` when the label cannot be parsed. -/
def nextLabel (day : String) : String :=
  match (tokens day.data).get? 1 with
  | some tok =>
    match parseIntChars tok with
    | some n => String.mk ('D' :: 'a' :: 'y' :: ' ' :: intChars (n + 1))
    | none => day ++ " (tasks appended)"
  | none => day ++ " (tasks appended)"

/-- A progress-ledger entry:
`{"day": ..., "tasks": [...], "completed": ..., "date": ...}`. -/
structure Entry where
  day : String
  tasks : List Task
  completed : Bool
  date : Option String
deriving DecidableEq

/-- Total hours across all entries of the ledger. -/
def ledgerHours (L : List Entry) : ℚ := (L.map (fun e => tasksHours e.tasks)).sum

/-- Extend the task list of the first entry labelled `nl` (the
`found_next["tasks"].extend(...)` branch of the skip handler). -/
def extendFirst (L : List Entry) (nl : String) (ts : List Task) : List Entry :=
  match L with
  | [] => []
  | en :: rest =>
    if en.day = nl then { en with tasks := en.tasks ++ ts } :: rest
    else en :: extendFirst rest nl ts

/-- The skip (carry-forward) handler of `page_tasks`, acting on the ledger
with the clicked entry `e`: a no-op when the entry has no tasks; otherwise
append copies of its tasks to the entry labelled `next_label` if one exists,
else insert a fresh pending entry right after `e`'s position; finally remove
the first ledger element equal to `e`. -/
def skipDay (L : List Entry) (e : Entry) : List Entry :=
  if e.tasks = [] then L
  else
    let idx := L.indexOf e
    let nl := nextLabel e.day
    if L.any (fun en => decide (en.day = nl)) then (extendFirst L nl e.tasks).erase e
    else (L.insertIdx (idx + 1) ⟨nl, e.tasks, false, none⟩).erase e

/-- The streak record `{"current": ..., "best": ...}`. -/
structure Streak where
  current : ℤ
  best : ℤ
deriving DecidableEq

/-- The streak side effect of a successful completion:
`s["current"] += 1; s["best"] = max(s["best"], s["current"])`. -/
def streakUpdate (s : Streak) : Streak := ⟨s.current + 1, max s.best (s.current + 1)⟩

/-- What the complete control of `page_tasks` can observably do for a given
day: update the state (the button exists and was clicked), or nothing — the
button is simply not rendered when the entry is already completed, and no
entry means no control at all. -/
inductive CompleteOutcome where
  | updated (s : Streak)
  | notOffered
deriving DecidableEq

/-- Mark the first entry labelled `day` completed and stamp the time. -/
def markFirst (L : List Entry) (day : String) (now : String) : List Entry :=
  match L with
  | [] => []
  | en :: rest =>
    if en.day = day then { en with completed := true, date := some now } :: rest
    else en :: markFirst rest day now

/-- The complete handler of `page_tasks`: only pending entries render the
"Mark Complete" button; clicking it marks the entry, stamps the time and
updates the streak.  For a completed (or absent) day nothing happens — no
error is raised or displayed. -/
def completeDay (L : List Entry) (s : Streak) (day : String) (now : String) :
    List Entry × Streak × CompleteOutcome :=
  match L.find? (fun en => decide (en.day = day)) with
  | none => (L, s, .notOffered)
  | some en =>
    if en.completed then (L, s, .notOffered)
    else (markFirst L day now, streakUpdate s, .updated (streakUpdate s))

/-- The per-user planner session state touched by plan generation. -/
structure SessionState where
  plans : Option (List (String × List Task))
  progress : List Entry
deriving DecidableEq

/-- Build the fresh progress ledger from a plan: one pending entry per day,
tasks copied. -/
def progressFromPlan (plan : List (String × List Task)) : List Entry :=
  plan.map (fun p => ⟨p.1, p.2, false, none⟩)

/-- The "Generate schedule" submit handler of `page_planner`: an empty
subject list only shows an error (returned boolean) and leaves the session
state untouched; otherwise the plan and a fresh ledger replace the state and
no error is shown.  `hours_per_day` and `days` are not validated here — the
input widgets constrain them upstream. -/
def generateHandler (subjects : List Subject) (hours_per_day : ℚ) (days : ℕ)
    (examDelta : Option ℤ) (focus : List String) (st : SessionState) :
    SessionState × Bool :=
  if subjects = [] then (st, true)
  else
    let plan := smart_generate_plan subjects hours_per_day days examDelta focus
    ({ plans := some plan, progress := progressFromPlan plan }, false)

/-- The Scenario A/B subject set: Math (hard) and History (easy). -/
def scenarioSubjects : List Subject := [⟨"Math", some "hard"⟩, ⟨"History", some "easy"⟩]

theorem round2_le (q : ℚ) : round2 q ≤ q + 1/200 := by
  have h := abs_sub_round (q * 100)
  rw [abs_le] at h
  unfold round2
  rw [div_le_iff (by norm_num : (0:ℚ) < 100)]
  linarith [h.2]

theorem le_round2 (q : ℚ) : q - 1/200 ≤ round2 q := by
  have h := abs_sub_round (q * 100)
  rw [abs_le] at h
  unfold round2
  rw [le_div_iff (by norm_num : (0:ℚ) < 100)]
  linarith [h.1]

theorem tasksHours_nil : tasksHours [] = 0 := rfl

theorem tasksHours_cons (t : Task) (ts : List Task) :
    tasksHours (t :: ts) = t.hours + tasksHours ts := by
  simp [tasksHours]

theorem processSubjects_spec (order : List (String × ℚ)) :
    ∀ (remaining : ℚ) (totals : Dict) (rdays : ℤ),
      tasksHours (processSubjects order remaining totals rdays).1
          = remaining - (processSubjects order remaining totals rdays).2.1
        ∧ ((processSubjects order remaining totals rdays).2.1 = remaining
            ∨ -(1/200) ≤ (processSubjects order remaining totals rdays).2.1)
        ∧ ∀ t ∈ (processSubjects order remaining totals rdays).1, 0 < t.hours := by
  induction order with
  | nil =>
    intro remaining totals rdays
    simp [processSubjects, tasksHours]
  | cons p rest ih =>
    intro remaining totals rdays
    obtain ⟨name, s⟩ := p
    simp only [processSubjects]
    by_cases h1 : dictGet totals name 0 ≤ 1/100
    · simp only [if_pos h1]; exact ih _ _ _
    · simp only [if_neg h1]
      by_cases h2 : round2 (min remaining (max (1/4)
          (dictGet totals name 0 / ((rdays : ℤ) : ℚ)))) ≤ 0
      · simp only [if_pos h2]; exact ih _ _ _
      · simp only [if_neg h2]
        push_neg at h2
        have halloc : round2 (min remaining (max (1/4)
            (dictGet totals name 0 / ((rdays : ℤ) : ℚ)))) ≤ remaining + 1/200 := by
          have h4 := round2_le (min remaining (max (1/4)
            (dictGet totals name 0 / ((rdays : ℤ) : ℚ))))
          have h5 := min_le_left remaining (max (1/4)
            (dictGet totals name 0 / ((rdays : ℤ) : ℚ)))
          linarith
        by_cases h3 : remaining - round2 (min remaining (max (1/4)
            (dictGet totals name 0 / ((rdays : ℤ) : ℚ)))) ≤ 1/100
        · simp only [if_pos h3]
          refine ⟨by simp [tasksHours], Or.inr (by linarith), ?_⟩
          intro t ht
          simp only [List.mem_singleton] at ht
          subst ht
          exact h2
        · simp only [if_neg h3]
          obtain ⟨ihsum, ihrem, ihpos⟩ := ih
            (remaining - round2 (min remaining (max (1/4)
              (dictGet totals name 0 / ((rdays : ℤ) : ℚ)))))
            (dictSet totals name (dictGet totals name 0 - round2 (min remaining (max (1/4)
              (dictGet totals name 0 / ((rdays : ℤ) : ℚ)))))) rdays
          push_neg at h3
          refine ⟨?_, ?_, ?_⟩
          · rw [tasksHours_cons, ihsum]; ring
          · right
            rcases ihrem with hq | hq
            · rw [hq]; linarith
            · exact hq
          · intro t ht
            rcases List.mem_cons.mp ht with h | h
            · subst h; exact h2
            · exact ihpos t h

theorem dayTasks_spec (order : List (String × ℚ)) (h : ℚ) (totals : Dict)
    (rdays : ℤ) (hh : 0 < h) :
    tasksHours (dayTasks order h totals rdays).1 ≤ h + 1/100
      ∧ ∀ t ∈ (dayTasks order h totals rdays).1, 0 < t.hours := by
  obtain ⟨hsum, hrem, hpos⟩ := processSubjects_spec order h totals rdays
  have hr : -(1/200) ≤ (processSubjects order h totals rdays).2.1 := by
    rcases hrem with hq | hq
    · rw [hq]; linarith
    · exact hq
  simp only [dayTasks]
  by_cases hb : (processSubjects order h totals rdays).2.1 > 1/100
  · simp only [if_pos hb]
    constructor
    · have h1 : tasksHours ((processSubjects order h totals rdays).1
          ++ [⟨"Review & Breaks", round2 (processSubjects order h totals rdays).2.1,
              "Light review / short breaks"⟩])
          = tasksHours (processSubjects order h totals rdays).1
            + round2 (processSubjects order h totals rdays).2.1 := by
        simp [tasksHours]
      rw [h1, hsum]
      have h2 := round2_le (processSubjects order h totals rdays).2.1
      linarith
    · intro t ht
      rcases List.mem_append.mp ht with hm | hm
      · exact hpos t hm
      · simp only [List.mem_singleton] at hm
        subst hm
        have := le_round2 (processSubjects order h totals rdays).2.1
        simp only []
        linarith
  · simp only [if_neg hb]
    push_neg at hb
    exact ⟨by rw [hsum]; linarith, hpos⟩

theorem daysLoop_spec (order : List (String × ℚ)) (h : ℚ) (days : ℕ)
    (hh : 0 < h) :
    ∀ (ds : List ℕ) (totals : Dict) (lbl : String) (ts : List Task),
      (lbl, ts) ∈ daysLoop order h days ds totals →
      tasksHours ts ≤ h + 1/100 ∧ ∀ t ∈ ts, 0 < t.hours := by
  intro ds
  induction ds with
  | nil => intro totals lbl ts hmem; simp [daysLoop] at hmem
  | cons d rest ih =>
    intro totals lbl ts hmem
    simp only [daysLoop, List.mem_cons] at hmem
    rcases hmem with hm | hm
    · have h1 := dayTasks_spec order h totals (max 1 ((days : ℤ) - (d : ℤ) + 1)) hh
      have h2 : ts = (dayTasks order h totals (max 1 ((days : ℤ) - (d : ℤ) + 1))).1 :=
        congrArg Prod.snd hm
      rw [h2]
      exact h1
    · exact ih _ _ _ hm

theorem tasksHours_filter_pos (ts : List Task) (hpos : ∀ t ∈ ts, 0 < t.hours) :
    ts.filter (fun t => decide (t.hours > 0)) = ts := by
  rw [List.filter_eq_self]
  intro t ht
  simpa using hpos t ht

/-- C1: for every plan returned by `smart_generate_plan` with
`hours_per_day > 0` and `days ≥ 1`, and for every day of the plan, the sum
of the hours of that day's tasks (including a closing "Review & Breaks"
task) is at most `hours_per_day + 0.01`. -/
theorem c1_daily_budget_bound (subjects : List Subject) (h : ℚ) (days : ℕ)
    (examDelta : Option ℤ) (focus : List String) (hh : 0 < h) (hd : 1 ≤ days) :
    ∀ lbl ts, (lbl, ts) ∈ smart_generate_plan subjects h days examDelta focus →
      tasksHours ts ≤ h + 1/100 := by
  intro lbl ts hmem
  simp only [smart_generate_plan, planFromScores, planFromTotals, List.mem_map] at hmem
  obtain ⟨⟨lbl', ts'⟩, hmem', heq⟩ := hmem
  obtain ⟨hsum, hpos⟩ := daysLoop_spec _ h days hh _ _ _ _ hmem'
  have hts : ts = ts'.filter (fun t => decide (t.hours > 0)) :=
    (congrArg Prod.snd heq).symm
  rw [hts, tasksHours_filter_pos ts' hpos]
  exact hsum

theorem splitP_no_sep (p : Char → Bool) (w : List Char)
    (hw : ∀ c ∈ w, p c = false) : splitP p w = [w] := by
  induction w with
  | nil => rfl
  | cons c cs ih =>
    have hc : p c = false := hw c (by simp)
    have ihs : splitP p cs = [cs] := ih (fun x hx => hw x (by simp [hx]))
    simp [splitP, ihs, hc]

theorem tokens_day_shape (w : List Char) (hw : w ≠ [])
    (hnw : ∀ c ∈ w, c.isWhitespace = false) :
    tokens ('D' :: 'a' :: 'y' :: ' ' :: w) = [['D', 'a', 'y'], w] := by
  have h1 : splitP (fun c => c.isWhitespace) w = [w] := splitP_no_sep _ w hnw
  simp [tokens, splitP, h1, hw]

theorem digitChar_isDigit (d : ℕ) (hd : d < 10) : (Nat.digitChar d).isDigit = true := by
  interval_cases d <;> decide

theorem digitVal_digitChar (d : ℕ) (hd : d < 10) : digitVal (Nat.digitChar d) = d := by
  interval_cases d <;> decide

theorem isDigit_not_ws (c : Char) (h : c.isDigit = true) : c.isWhitespace = false := by
  by_contra hws
  rw [Bool.not_eq_false] at hws
  simp only [Char.isWhitespace, Bool.or_eq_true, decide_eq_true_eq] at hws
  rcases hws with ((h1 | h1) | h1) | h1 <;> subst h1 <;> exact absurd h (by decide)

theorem isDigit_ne_dash (c : Char) (h : c.isDigit = true) : c ≠ '-' := by
  intro hh; subst hh; exact absurd h (by decide)

theorem isDigit_ne_plus (c : Char) (h : c.isDigit = true) : c ≠ '+' := by
  intro hh; subst hh; exact absurd h (by decide)

theorem natCharsAux_eq (n : ℕ) : ∀ fuel, n ≤ fuel →
    natCharsAux fuel n = ((Nat.digits 10 n).map Nat.digitChar).reverse := by
  induction n using Nat.strong_induction_on with
  | _ n ih =>
    intro fuel hfuel
    match fuel with
    | 0 =>
      have h0 : n = 0 := Nat.le_zero.mp hfuel
      subst h0; simp [natCharsAux]
    | fuel + 1 =>
      by_cases hn : n = 0
      · subst hn; simp [natCharsAux]
      · have hpos : 0 < n := Nat.pos_of_ne_zero hn
        have hdiv : n / 10 < n := Nat.div_lt_self hpos (by norm_num)
        have hle : n / 10 ≤ fuel := by omega
        simp only [natCharsAux, if_neg hn]
        rw [ih (n / 10) hdiv fuel hle, Nat.digits_def' (by norm_num : (1:ℕ) < 10) hpos]
        simp

theorem natChars_digits (n : ℕ) (hn : n ≠ 0) :
    natChars n = ((Nat.digits 10 n).map Nat.digitChar).reverse := by
  simp [natChars, hn, natCharsAux_eq n n le_rfl]

theorem natChars_ne_nil (n : ℕ) : natChars n ≠ [] := by
  by_cases hn : n = 0
  · subst hn; decide
  · rw [natChars_digits n hn]
    simp [Nat.digits_ne_nil_iff_ne_zero.mpr hn]

theorem natChars_isDigit (n : ℕ) : ∀ c ∈ natChars n, c.isDigit = true := by
  by_cases hn : n = 0
  · subst hn; intro c hc
    rw [show natChars 0 = ['0'] from rfl, List.mem_singleton] at hc
    subst hc; decide
  · rw [natChars_digits n hn]
    intro c hc
    simp only [List.mem_reverse, List.mem_map] at hc
    obtain ⟨d, hd, rfl⟩ := hc
    exact digitChar_isDigit d (Nat.digits_lt_base (by norm_num) hd)

theorem foldl_digitVal (ds : List ℕ) (hds : ∀ d ∈ ds, d < 10) :
    ∀ a : ℕ, ((ds.map Nat.digitChar).reverse).foldl (fun x c => 10 * x + digitVal c) a
      = a * 10 ^ ds.length + Nat.ofDigits 10 ds := by
  induction ds with
  | nil => intro a; simp
  | cons d t ih =>
    intro a
    have hd : d < 10 := hds d (by simp)
    have ht : ∀ x ∈ t, x < 10 := fun x hx => hds x (by simp [hx])
    simp only [List.map_cons, List.reverse_cons, List.foldl_append, List.foldl_cons,
      List.foldl_nil]
    rw [ih ht a, digitVal_digitChar d hd, Nat.ofDigits_cons]
    simp only [List.length_cons, pow_succ]
    ring

theorem parseNat_natChars (n : ℕ) : parseNatChars (natChars n) = some n := by
  by_cases hn : n = 0
  · subst hn; decide
  · have hne := natChars_ne_nil n
    have hdig := natChars_isDigit n
    rw [parseNatChars, if_pos ⟨hne, List.all_eq_true.mpr hdig⟩]
    rw [natChars_digits n hn,
      foldl_digitVal (Nat.digits 10 n) (fun d hd => Nat.digits_lt_base (by norm_num) hd) 0]
    simp [Nat.ofDigits_digits]

theorem natChars_injective (m n : ℕ) (h : natChars m = natChars n) : m = n := by
  have h1 := parseNat_natChars m
  have h2 := parseNat_natChars n
  rw [h, h2] at h1
  exact (Option.some_inj.mp h1).symm

theorem dayLabel_injective (m n : ℕ) (h : dayLabel m = dayLabel n) : m = n := by
  have h1 : ('D' :: 'a' :: 'y' :: ' ' :: natChars m)
      = ('D' :: 'a' :: 'y' :: ' ' :: natChars n) := congrArg String.data h
  simp only [List.cons.injEq, true_and] at h1
  exact natChars_injective m n h1

theorem parseInt_natChars (k : ℕ) : parseIntChars (natChars k) = some (k : ℤ) := by
  obtain ⟨c, l', hcl⟩ := List.exists_cons_of_ne_nil (natChars_ne_nil k)
  have hcdig : c.isDigit = true := natChars_isDigit k c (by rw [hcl]; simp)
  have hhead : (natChars k).head? = some c := by rw [hcl]; rfl
  rw [parseIntChars, hhead]
  rw [if_neg (by simp [isDigit_ne_dash c hcdig]), if_neg (by simp [isDigit_ne_plus c hcdig])]
  rw [parseNat_natChars]
  rfl

theorem intChars_ne_nil (m : ℤ) : intChars m ≠ [] := by
  unfold intChars
  by_cases hm : m < 0
  · rw [if_pos hm]; simp
  · rw [if_neg hm]; exact natChars_ne_nil _

theorem intChars_no_ws (m : ℤ) : ∀ c ∈ intChars m, c.isWhitespace = false := by
  intro c hc
  unfold intChars at hc
  by_cases hm : m < 0
  · rw [if_pos hm] at hc
    rcases List.mem_cons.mp hc with h | h
    · subst h; decide
    · exact isDigit_not_ws c (natChars_isDigit _ c h)
  · rw [if_neg hm] at hc
    exact isDigit_not_ws c (natChars_isDigit _ c hc)

theorem parseIntChars_intChars (m : ℤ) : parseIntChars (intChars m) = some m := by
  by_cases hm : m < 0
  · rw [intChars, if_pos hm, parseIntChars]
    rw [if_pos (show ('-' :: natChars m.natAbs).head? = some '-' from rfl)]
    rw [List.tail_cons, parseNat_natChars]
    show some (-(Int.ofNat m.natAbs)) = some m
    have h4 : -((m.natAbs : ℤ)) = m := by omega
    rw [show Int.ofNat m.natAbs = ((m.natAbs : ℤ)) from rfl, h4]
  · rw [intChars, if_neg hm, parseInt_natChars]
    congr 1
    omega

theorem append_suffix_ne (d : String) : d ++ " (tasks appended)" ≠ d := by
  intro h
  have h1 := congrArg String.length h
  rw [String.length_append] at h1
  have h2 : (" (tasks appended)" : String).length = 17 := by decide
  omega

theorem nextLabel_ne (day : String) : nextLabel day ≠ day := by
  rcases hget : (tokens day.data).get? 1 with _ | tok
  · simp only [nextLabel, hget]
    exact append_suffix_ne day
  · rcases hparse : parseIntChars tok with _ | n
    · simp only [nextLabel, hget, hparse]
      exact append_suffix_ne day
    · simp only [nextLabel, hget, hparse]
      intro h
      have hdata : day.data = 'D' :: 'a' :: 'y' :: ' ' :: intChars (n + 1) :=
        (congrArg String.data h).symm
      have htok : (tokens day.data).get? 1 = some (intChars (n + 1)) := by
        rw [hdata, tokens_day_shape _ (intChars_ne_nil _) (intChars_no_ws _)]
        rfl
      rw [hget] at htok
      have htok2 : tok = intChars (n + 1) := Option.some_inj.mp htok
      rw [htok2, parseIntChars_intChars] at hparse
      have : n + 1 = n := Option.some_inj.mp hparse
      omega

theorem nextLabel_dayLabel (d : ℕ) : nextLabel (dayLabel d) = dayLabel (d + 1) := by
  have htok : tokens (dayLabel d).data = [['D', 'a', 'y'], natChars d] :=
    tokens_day_shape _ (natChars_ne_nil d)
      (fun c hc => isDigit_not_ws c (natChars_isDigit d c hc))
  have h3 : ((d : ℤ) + 1).toNat = d + 1 := by omega
  have h2 : intChars ((d : ℤ) + 1) = natChars (d + 1) := by
    unfold intChars
    rw [if_neg (by omega), h3]
  rw [nextLabel, htok]
  simp only [List.get?]
  rw [parseInt_natChars]
  show String.mk ('D' :: 'a' :: 'y' :: ' ' :: intChars ((d : ℤ) + 1)) = dayLabel (d + 1)
  rw [h2]
  rfl

theorem daysLoop_keys (order : List (String × ℚ)) (h : ℚ) (days : ℕ) :
    ∀ (ds : List ℕ) (totals : Dict),
      (daysLoop order h days ds totals).map Prod.fst = ds.map dayLabel := by
  intro ds
  induction ds with
  | nil => intro totals; rfl
  | cons d rest ih =>
    intro totals
    simp only [daysLoop, List.map_cons]
    rw [ih]

/-- C9: for every generation with non-empty subjects, positive hours and
`days ≥ 1`, the plan's key list is exactly `"Day 1" … "Day days"` in that
insertion order, without gaps or duplicates. -/
theorem c9_day_coverage (subjects : List Subject) (h : ℚ) (days : ℕ)
    (examDelta : Option ℤ) (focus : List String)
    (hs : subjects ≠ []) (hh : 0 < h) (hd : 1 ≤ days) :
    (smart_generate_plan subjects h days examDelta focus).map Prod.fst
        = (List.range days).map (fun k => dayLabel (k + 1))
      ∧ ((smart_generate_plan subjects h days examDelta focus).map Prod.fst).Nodup := by
  have hkeys : (smart_generate_plan subjects h days examDelta focus).map Prod.fst
      = (List.range days).map (fun k => dayLabel (k + 1)) := by
    simp only [smart_generate_plan, planFromScores, planFromTotals, List.map_map]
    rw [show ((fun p : String × List Task => p.1) ∘
        (fun p : String × List Task => (p.1, p.2.filter (fun t => decide (t.hours > 0)))))
        = Prod.fst from rfl]
    rw [daysLoop_keys, List.map_map]
    rfl
  refine ⟨hkeys, ?_⟩
  rw [hkeys]
  exact List.Nodup.map
    (fun a b hab => by have := dayLabel_injective (a + 1) (b + 1) hab; omega)
    (List.nodup_range days)

theorem tasksHours_append (a b : List Task) :
    tasksHours (a ++ b) = tasksHours a + tasksHours b := by
  simp [tasksHours]

theorem ledgerHours_cons (e : Entry) (L : List Entry) :
    ledgerHours (e :: L) = tasksHours e.tasks + ledgerHours L := by
  simp [ledgerHours]

theorem ledgerHours_perm {L1 L2 : List Entry} (h : L1.Perm L2) :
    ledgerHours L1 = ledgerHours L2 :=
  (h.map _).sum_eq

theorem ledgerHours_erase (L : List Entry) (e : Entry) (he : e ∈ L) :
    ledgerHours (L.erase e) = ledgerHours L - tasksHours e.tasks := by
  have hp := List.perm_cons_erase he
  rw [ledgerHours_perm hp, ledgerHours_cons]
  ring

theorem extendFirst_hours (nl : String) (ts : List Task) :
    ∀ L : List Entry, L.any (fun en => decide (en.day = nl)) = true →
      ledgerHours (extendFirst L nl ts) = ledgerHours L + tasksHours ts := by
  intro L
  induction L with
  | nil => intro h; simp at h
  | cons en rest ih =>
    intro hany
    by_cases hd : en.day = nl
    · simp only [extendFirst, if_pos hd]
      rw [ledgerHours_cons, ledgerHours_cons]
      show tasksHours (en.tasks ++ ts) + _ = _
      rw [tasksHours_append]
      ring
    · have hany' : rest.any (fun en => decide (en.day = nl)) = true := by
        simp only [List.any_cons, Bool.or_eq_true, decide_eq_true_eq] at hany
        rcases hany with h | h
        · exact absurd h hd
        · exact h
      simp only [extendFirst, if_neg hd]
      rw [ledgerHours_cons, ledgerHours_cons, ih hany']
      ring

theorem extendFirst_mem_of_ne (nl : String) (ts : List Task) :
    ∀ (L : List Entry) (e : Entry), e ∈ L → e.day ≠ nl →
      e ∈ extendFirst L nl ts := by
  intro L
  induction L with
  | nil => intro e he _; simp at he
  | cons en rest ih =>
    intro e he hne
    rcases List.mem_cons.mp he with h | h
    · subst h
      simp only [extendFirst, if_neg hne]
      exact List.mem_cons_self _ _
    · by_cases hd : en.day = nl
      · simp only [extendFirst, if_pos hd]
        exact List.mem_cons_of_mem _ h
      · simp only [extendFirst, if_neg hd]
        exact List.mem_cons_of_mem _ (ih e h hne)

theorem extendFirst_days (nl : String) (ts : List Task) :
    ∀ L : List Entry, (extendFirst L nl ts).map Entry.day = L.map Entry.day := by
  intro L
  induction L with
  | nil => rfl
  | cons en rest ih =>
    by_cases hd : en.day = nl
    · simp only [extendFirst, if_pos hd, List.map_cons]
    · simp only [extendFirst, if_neg hd, List.map_cons, ih]

theorem insertIdx_perm {α : Type} (a : α) :
    ∀ (n : ℕ) (l : List α), n ≤ l.length → (l.insertIdx n a).Perm (a :: l) := by
  intro n
  induction n with
  | zero =>
    intro l _
    rw [List.insertIdx_zero]
  | succ n ih =>
    intro l hl
    cases l with
    | nil => simp at hl
    | cons x t =>
      rw [List.insertIdx_succ_cons]
      exact ((ih t (by simpa using hl)).cons x).trans (List.Perm.swap a x t)

theorem insertIdx_take_drop {α : Type} (a : α) :
    ∀ (n : ℕ) (l : List α), n ≤ l.length →
      l.insertIdx n a = l.take n ++ a :: l.drop n := by
  intro n
  induction n with
  | zero =>
    intro l _
    rw [List.insertIdx_zero]
    rfl
  | succ n ih =>
    intro l hl
    cases l with
    | nil => simp at hl
    | cons x t =>
      rw [List.insertIdx_succ_cons, ih t (by simpa using hl)]
      rfl

/-- C4: a `skip(day)` applied to a ledger entry that has at least one
task conserves the total hours across the ledger: tasks move, none are lost
or duplicated. -/
theorem c4_skip_conserves_hours (L : List Entry) (e : Entry) (he : e ∈ L)
    (hts : e.tasks ≠ []) : ledgerHours (skipDay L e) = ledgerHours L := by
  have hne : e.day ≠ nextLabel e.day := fun h => nextLabel_ne e.day h.symm
  unfold skipDay
  rw [if_neg hts]
  by_cases hany : L.any (fun en => decide (en.day = nextLabel e.day)) = true
  · rw [if_pos hany]
    have hmem : e ∈ extendFirst L (nextLabel e.day) e.tasks :=
      extendFirst_mem_of_ne _ _ L e he hne
    rw [ledgerHours_erase _ _ hmem, extendFirst_hours _ _ L hany]
    ring
  · rw [if_neg hany]
    have hidx : L.indexOf e < L.length := List.indexOf_lt_length.mpr he
    have hperm : (L.insertIdx (L.indexOf e + 1)
        ⟨nextLabel e.day, e.tasks, false, none⟩).Perm
        (⟨nextLabel e.day, e.tasks, false, none⟩ :: L) :=
      insertIdx_perm _ _ _ (by omega)
    have hmem2 : e ∈ L.insertIdx (L.indexOf e + 1)
        ⟨nextLabel e.day, e.tasks, false, none⟩ :=
      hperm.mem_iff.mpr (List.mem_cons_of_mem _ he)
    rw [ledgerHours_erase _ _ hmem2, ledgerHours_perm hperm, ledgerHours_cons]
    ring

theorem extend_map_id (nl : String) (ts : List Task) :
    ∀ l : List Entry, (∀ x ∈ l, x.day ≠ nl) →
      l.map (fun en => if en.day = nl then { en with tasks := en.tasks ++ ts }
        else en) = l := by
  intro l
  induction l with
  | nil => intro _; rfl
  | cons x t ih =>
    intro hx
    rw [List.map_cons, if_neg (hx x (List.mem_cons_self _ _)),
      ih (fun y hy => hx y (List.mem_cons_of_mem _ hy))]

theorem extendFirst_eq_map (nl : String) (ts : List Task) :
    ∀ L : List Entry, (L.map Entry.day).Nodup →
      L.any (fun en => decide (en.day = nl)) = true →
      extendFirst L nl ts
        = L.map (fun en => if en.day = nl then { en with tasks := en.tasks ++ ts }
            else en) := by
  intro L
  induction L with
  | nil => intro _ h; simp at h
  | cons en rest ih =>
    intro hnd hany
    rw [List.map_cons] at hnd
    by_cases hd : en.day = nl
    · simp only [extendFirst, if_pos hd, List.map_cons]
      congr 1
      have hnotin : ∀ x ∈ rest, x.day ≠ nl := by
        intro x hx hxd
        exact (List.nodup_cons.mp hnd).1
          (hd ▸ hxd ▸ List.mem_map_of_mem Entry.day hx)
      exact (extend_map_id nl ts rest hnotin).symm
    · have hany' : rest.any (fun en => decide (en.day = nl)) = true := by
        simp only [List.any_cons, Bool.or_eq_true, decide_eq_true_eq] at hany
        rcases hany with h | h
        · exact absurd h hd
        · exact h
      simp only [extendFirst, if_neg hd, List.map_cons]
      congr 1
      exact ih (List.nodup_cons.mp hnd).2 hany'

/-- C7: skipping an entry with tasks either appends copies of its tasks
(in order) to the entry carrying the incremented day label when that label
exists, or inserts a fresh pending entry right after the skipped position;
in both cases the skipped entry's label disappears from the ledger.  The
first conjunct records that incrementing a well-formed label `"Day N"`
yields `"Day N+1"`. -/
theorem c7_skip_restructure (L : List Entry) (e : Entry)
    (he : e ∈ L) (hts : e.tasks ≠ []) (hnd : (L.map Entry.day).Nodup) :
    (∀ n : ℕ, nextLabel (dayLabel n) = dayLabel (n + 1))
    ∧ (∀ nx ∈ L, nx.day = nextLabel e.day →
        skipDay L e
          = (L.map (fun en => if en.day = nextLabel e.day
              then { en with tasks := en.tasks ++ e.tasks } else en)).erase e)
    ∧ ((∀ nx ∈ L, nx.day ≠ nextLabel e.day) →
        skipDay L e = L.take (L.indexOf e)
          ++ ⟨nextLabel e.day, e.tasks, false, none⟩ :: L.drop (L.indexOf e + 1))
    ∧ e.day ∉ (skipDay L e).map Entry.day := by
  have hne : e.day ≠ nextLabel e.day := fun h => nextLabel_ne e.day h.symm
  have hidx : L.indexOf e < L.length := List.indexOf_lt_length.mpr he
  have hget : L.get ⟨L.indexOf e, hidx⟩ = e := List.indexOf_get hidx
  have hdecomp : L = L.take (L.indexOf e) ++ e :: L.drop (L.indexOf e + 1) := by
    conv_lhs => rw [← List.take_append_drop (L.indexOf e) L]
    congr 1
    rw [List.drop_eq_get_cons hidx, hget]
  have hc2 : ∀ nx ∈ L, nx.day = nextLabel e.day →
      skipDay L e
        = (L.map (fun en => if en.day = nextLabel e.day
            then { en with tasks := en.tasks ++ e.tasks } else en)).erase e := by
    intro nx hnx hnxd
    have hany : L.any (fun en => decide (en.day = nextLabel e.day)) = true :=
      List.any_eq_true.mpr ⟨nx, hnx, by simp [hnxd]⟩
    unfold skipDay
    rw [if_neg hts, if_pos hany, extendFirst_eq_map _ _ L hnd hany]
  have hc3 : (∀ nx ∈ L, nx.day ≠ nextLabel e.day) →
      skipDay L e = L.take (L.indexOf e)
        ++ ⟨nextLabel e.day, e.tasks, false, none⟩ :: L.drop (L.indexOf e + 1) := by
    intro hnone
    have hany : ¬ (L.any (fun en => decide (en.day = nextLabel e.day)) = true) := by
      intro h
      obtain ⟨x, hx, hpx⟩ := List.any_eq_true.mp h
      exact hnone x hx (of_decide_eq_true hpx)
    unfold skipDay
    rw [if_neg hts, if_neg hany]
    have hnotmem : e ∉ L.take (L.indexOf e) := by
      have hndL : L.Nodup := hnd.of_map
      rw [hdecomp] at hndL
      obtain ⟨_, _, hdisj⟩ := List.nodup_append.mp hndL
      intro hmem
      exact hdisj hmem (List.mem_cons_self e _)
    rw [insertIdx_take_drop _ _ _ (by omega), List.take_succ]
    have hgetElem : L[L.indexOf e]? = some e := by
      rw [List.getElem?_eq_getElem hidx]
      have hg2 := hget
      rw [List.get_eq_getElem] at hg2
      exact congrArg some hg2
    rw [hgetElem]
    simp only [Option.toList_some]
    rw [List.append_assoc, List.erase_append_right _ hnotmem,
      List.singleton_append, List.erase_cons_head]
  refine ⟨fun n => nextLabel_dayLabel n, hc2, hc3, ?_⟩
  by_cases hex : ∃ nx, nx ∈ L ∧ nx.day = nextLabel e.day
  · obtain ⟨nx, hnx, hnxd⟩ := hex
    rw [hc2 nx hnx hnxd]
    have hdays : (L.map (fun en => if en.day = nextLabel e.day
        then { en with tasks := en.tasks ++ e.tasks } else en)).map Entry.day
        = L.map Entry.day := by
      rw [List.map_map]
      apply List.map_congr_left
      intro en _
      by_cases hh : en.day = nextLabel e.day
      · simp [Function.comp, hh]
      · simp [Function.comp, hh]
    have hXnd : (L.map (fun en => if en.day = nextLabel e.day
        then { en with tasks := en.tasks ++ e.tasks } else en)).Nodup :=
      List.Nodup.of_map Entry.day (by rw [hdays]; exact hnd)
    have hfe : (fun en => if en.day = nextLabel e.day
        then { en with tasks := en.tasks ++ e.tasks } else en) e = e := by
      simp [hne]
    have heX : e ∈ L.map (fun en => if en.day = nextLabel e.day
        then { en with tasks := en.tasks ++ e.tasks } else en) :=
      List.mem_map.mpr ⟨e, he, hfe⟩
    intro hmm
    obtain ⟨x, hx, hxd⟩ := List.mem_map.mp hmm
    have hxX := (List.Nodup.mem_erase_iff hXnd).mp hx
    have hinj := List.inj_on_of_nodup_map (by rw [hdays]; exact hnd)
    exact hxX.1 (hinj hxX.2 heX (by rw [hxd]))
  · push_neg at hex
    rw [hc3 hex]
    have hnd2 := hnd
    rw [hdecomp, List.map_append, List.map_cons] at hnd2
    obtain ⟨_, h2, hdisj⟩ := List.nodup_append.mp hnd2
    intro hmm
    rw [List.map_append, List.map_cons] at hmm
    rcases List.mem_append.mp hmm with hm | hm
    · exact hdisj hm (List.mem_cons_self _ _)
    · rcases List.mem_cons.mp hm with hm2 | hm2
      · exact hne hm2
      · exact (List.nodup_cons.mp h2).1 hm2

/-- C8: starting from a streak with `best ≥ current ≥ 0`, the invariant
`best ≥ current` holds after every update, and each successful complete
raises `current` by exactly 1 and sets `best` to `max best (current + 1)`. -/
theorem c8_streak_invariant (s : Streak) (h0 : 0 ≤ s.current)
    (hcb : s.current ≤ s.best) :
    ∀ n : ℕ,
      (streakUpdate^[n] s).current ≤ (streakUpdate^[n] s).best
      ∧ (streakUpdate^[n + 1] s).current = (streakUpdate^[n] s).current + 1
      ∧ (streakUpdate^[n + 1] s).best
          = max (streakUpdate^[n] s).best ((streakUpdate^[n] s).current + 1)
      ∧ 0 ≤ (streakUpdate^[n] s).current := by
  intro n
  induction n with
  | zero =>
    refine ⟨hcb, ?_, ?_, h0⟩
    · rw [Function.iterate_succ_apply', Function.iterate_zero_apply]
      rfl
    · rw [Function.iterate_succ_apply', Function.iterate_zero_apply]
      rfl
  | succ n ih =>
    obtain ⟨h1, _, _, h4⟩ := ih
    refine ⟨?_, ?_, ?_, ?_⟩
    · rw [Function.iterate_succ_apply']
      show (streakUpdate (streakUpdate^[n] s)).current
        ≤ (streakUpdate (streakUpdate^[n] s)).best
      simp only [streakUpdate]
      exact le_max_right _ _
    · rw [Function.iterate_succ_apply' streakUpdate (n + 1) s]
      rfl
    · rw [Function.iterate_succ_apply' streakUpdate (n + 1) s]
      rfl
    · rw [Function.iterate_succ_apply']
      show 0 ≤ (streakUpdate (streakUpdate^[n] s)).current
      simp only [streakUpdate]
      omega

/-- C5 (amended): when the entry found for `day` is already completed, the
complete control is not rendered, so re-completion is impossible: the
handler performs no mutation at all — ledger and streak are returned
unchanged — and no error of any kind is surfaced. -/
theorem c5_completed_day_not_offered (L : List Entry) (s : Streak)
    (day now : String) (en : Entry)
    (hfind : L.find? (fun x => decide (x.day = day)) = some en)
    (hc : en.completed = true) :
    completeDay L s day now = (L, s, CompleteOutcome.notOffered) := by
  unfold completeDay
  rw [hfind]
  simp only [hc, if_true]

theorem urgencyOf_ge_one (δ : Option ℤ) : 1 ≤ urgencyOf δ := by
  cases δ with
  | none => exact le_refl 1
  | some d =>
    simp only [urgencyOf]
    split_ifs with h1 h2
    · have hc : (1 : ℚ) ≤ ((8 - max d 0 : ℤ) : ℚ) := by
        exact_mod_cast (by omega : (1 : ℤ) ≤ 8 - max d 0)
      have hp : (0 : ℚ) ≤ ((8 - max d 0 : ℤ) : ℚ) * (12 / 100) :=
        mul_nonneg (by linarith) (by norm_num)
      linarith
    · have hc : (0 : ℚ) ≤ ((30 - max d 0 : ℤ) : ℚ) := by
        exact_mod_cast (by omega : (0 : ℤ) ≤ 30 - max d 0)
      have hp : (0 : ℚ) ≤ ((30 - max d 0 : ℤ) : ℚ) * (3 / 100) :=
        mul_nonneg hc (by norm_num)
      linarith
    · exact le_refl 1

theorem urgencyOf_eq_spec (δ : Option ℤ) : urgencyOf δ = specUrgency δ := by
  cases δ with
  | none => rfl
  | some d =>
    simp only [urgencyOf, specUrgency]
    by_cases h1 : max d 0 ≤ 7
    · rw [if_pos h1, if_pos h1, if_neg (by omega : ¬(7 < max d 0 ∧ max d 0 ≤ 30))]
      ring
    · by_cases h2 : max d 0 ≤ 30
      · rw [if_neg h1, if_pos h2, if_neg h1, if_pos ⟨by omega, h2⟩]
        ring
      · rw [if_neg h1, if_neg h2, if_neg h1,
          if_neg (by omega : ¬(7 < max d 0 ∧ max d 0 ≤ 30))]
        ring

theorem lookup_easy : weights.lookup "easy" = some 1 := rfl

theorem lookup_medium : weights.lookup "medium" = some (3/2) := rfl

theorem lookup_hard : weights.lookup "hard" = some (5/2) := rfl

theorem specBaseWeight_easy : specBaseWeight "easy" = 1 := rfl

theorem specBaseWeight_medium : specBaseWeight "medium" = 3/2 := rfl

theorem specBaseWeight_hard : specBaseWeight "hard" = 5/2 := rfl

theorem weight_pos (k : String) : 0 < (weights.lookup k).getD (3/2) := by
  by_cases h1 : k = "easy"
  · subst h1; rw [lookup_easy]; norm_num
  · by_cases h2 : k = "medium"
    · subst h2; rw [lookup_medium]; norm_num
    · by_cases h3 : k = "hard"
      · subst h3; rw [lookup_hard]; norm_num
      · have b1 : (k == "easy") = false := beq_eq_false_iff_ne.mpr h1
        have b2 : (k == "medium") = false := beq_eq_false_iff_ne.mpr h2
        have b3 : (k == "hard") = false := beq_eq_false_iff_ne.mpr h3
        simp only [weights, List.lookup, b1, b2, b3, Option.getD_none]
        norm_num

/-- C6: the computed score is strictly positive, and for the three known
difficulty strings it equals the spec's
`base_weight × urgency × boost` product. -/
theorem c6_score_formula (s : Subject) (δ : Option ℤ) (focus : List String) :
    0 < scoreOf s δ focus
    ∧ ∀ v, s.difficulty = some v → (v = "easy" ∨ v = "medium" ∨ v = "hard") →
        scoreOf s δ focus = specBaseWeight v * specUrgency δ * specBoost s.name focus := by
  constructor
  · unfold scoreOf
    refine mul_pos (mul_pos (weight_pos _) ?_) ?_
    · have := urgencyOf_ge_one δ
      linarith
    · by_cases hb : s.name ∈ focus
      · rw [if_pos hb]; norm_num
      · rw [if_neg hb]; norm_num
  · intro v hv hmem
    unfold scoreOf specBoost
    rw [hv, urgencyOf_eq_spec]
    rcases hmem with h | h | h <;> subst h <;>
      simp only [Option.getD_some, lookup_easy, lookup_medium, lookup_hard,
        specBaseWeight_easy, specBaseWeight_medium, specBaseWeight_hard] <;>
      split_ifs <;> ring

theorem normalizeDifficulty_name (s : Subject) :
    (normalizeDifficulty s).name = s.name := by
  rcases s with ⟨name, diff⟩
  cases diff with
  | none => rfl
  | some v =>
    simp only [normalizeDifficulty]
    split_ifs <;> rfl

theorem scoreOf_normalize (s : Subject) (δ : Option ℤ) (focus : List String) :
    scoreOf (normalizeDifficulty s) δ focus = scoreOf s δ focus := by
  rcases s with ⟨name, diff⟩
  cases diff with
  | none => rfl
  | some v =>
    simp only [normalizeDifficulty]
    by_cases hv : v = "easy" ∨ v = "medium" ∨ v = "hard"
    · rw [if_pos hv]
    · rw [if_neg hv]
      push_neg at hv
      obtain ⟨h1, h2, h3⟩ := hv
      have b1 : (v == "easy") = false := beq_eq_false_iff_ne.mpr h1
      have b2 : (v == "medium") = false := beq_eq_false_iff_ne.mpr h2
      have b3 : (v == "hard") = false := beq_eq_false_iff_ne.mpr h3
      unfold scoreOf
      simp only [Option.getD_some]
      congr 2
      simp [weights, List.lookup, b1, b2, b3]

/-- C10: a missing or unknown difficulty string does not make generation
fail; the subject is scored exactly as difficulty `"medium"` (base weight
1.5), so the whole plan is the one obtained by replacing the difficulty by
`"medium"`. -/
theorem c10_unknown_difficulty (subs : List Subject) (h : ℚ) (days : ℕ)
    (δ : Option ℤ) (focus : List String) :
    smart_generate_plan (subs.map normalizeDifficulty) h days δ focus
        = smart_generate_plan subs h days δ focus
    ∧ ∀ s : Subject,
        (∀ v, s.difficulty = some v → ¬(v = "easy" ∨ v = "medium" ∨ v = "hard")) →
        scoreOf s δ focus = scoreOf ⟨s.name, some "medium"⟩ δ focus := by
  constructor
  · unfold smart_generate_plan
    congr 1
    unfold scoresFor
    rw [List.map_map]
    apply List.map_congr_left
    intro s _
    show ((normalizeDifficulty s).name, scoreOf (normalizeDifficulty s) δ focus)
      = (s.name, scoreOf s δ focus)
    rw [scoreOf_normalize, normalizeDifficulty_name]
  · intro s hs
    have h1 : normalizeDifficulty s = ⟨s.name, some "medium"⟩ := by
      rcases s with ⟨name, diff⟩
      cases diff with
      | none => rfl
      | some v =>
        simp only [normalizeDifficulty]
        rw [if_neg (hs v rfl)]
    exact (scoreOf_normalize s δ focus).symm.trans (by rw [h1])

/-- C2 (amended): the generation handler fails (error shown, no plan and
no ledger created, session state untouched) exactly when the subject list is
empty; `hours_per_day ≤ 0` or `days < 1` are not rejected — a plan and a
fresh ledger are produced regardless. -/
theorem c2_generation_error_iff_empty (subjects : List Subject) (h : ℚ)
    (days : ℕ) (examDelta : Option ℤ) (focus : List String) (st : SessionState) :
    ((generateHandler subjects h days examDelta focus st).2 = true ↔ subjects = [])
    ∧ (subjects = [] → generateHandler subjects h days examDelta focus st = (st, true))
    ∧ (subjects ≠ [] →
        (generateHandler subjects h days examDelta focus st).1.plans
            = some (smart_generate_plan subjects h days examDelta focus)
          ∧ (generateHandler subjects h days examDelta focus st).1.progress
            = progressFromPlan (smart_generate_plan subjects h days examDelta focus)
          ∧ (generateHandler subjects h days examDelta focus st).2 = false) := by
  unfold generateHandler
  by_cases hs : subjects = [] <;> simp [hs]


theorem planFromScores_def (scores : Dict) (h : ℚ) (days : ℕ) :
    planFromScores scores h days
      = planFromTotals (subjTotals scores
          (if (scores.map Prod.snd).sum = 0 then 1 else (scores.map Prod.snd).sum)
          (h * (days : ℚ))) h days := rfl

theorem scoresFor_scenario (δ : Option ℤ) :
    scoresFor scenarioSubjects δ []
      = [("Math", 5/2 * urgencyOf δ * 1), ("History", 1 * urgencyOf δ * 1)] := rfl

theorem scenario_totals_eval (u : ℚ) (hu : u ≠ 0) :
    planFromScores [("Math", 5/2 * u * 1), ("History", 1 * u * 1)] 4 2
      = planFromTotals [("Math", 571/100), ("History", 229/100)] 4 2 := by
  rw [planFromScores_def]
  have hsum : ((([("Math", 5/2 * u * 1), ("History", 1 * u * 1)] : Dict).map Prod.snd).sum)
      = 7/2 * u := by
    simp
    ring
  rw [hsum, if_neg (mul_ne_zero (by norm_num : (7/2 : ℚ) ≠ 0) hu)]
  congr 1
  simp only [subjTotals, List.foldl_cons, List.foldl_nil]
  simp [dictInsert]
  constructor
  · have hx : 5 / 2 * u / (7 / 2 * u) * (4 * 2 : ℚ) = 40/7 := by
      field_simp
      ring
    rw [hx]
    norm_num [round2, round_eq, sup_eq_right]
  · have hx : u / (7 / 2 * u) * (4 * 2 : ℚ) = 16/7 := by
      field_simp
      ring
    rw [hx]
    norm_num [round2, round_eq, sup_eq_right]

/-- The Scenario A/B plans do not depend on the exam date at all: the
urgency multiplier scales both subjects' scores uniformly and cancels in the
proportional allocation. -/
theorem scenario_plans_eq (δ : Option ℤ) :
    smart_generate_plan scenarioSubjects 4 2 δ []
      = smart_generate_plan scenarioSubjects 4 2 none [] := by
  have hu1 : 1 ≤ urgencyOf δ := urgencyOf_ge_one δ
  have hu0 : urgencyOf δ ≠ 0 := by intro h; rw [h] at hu1; linarith
  unfold smart_generate_plan
  rw [scoresFor_scenario δ, scoresFor_scenario none]
  rw [scenario_totals_eval (urgencyOf δ) hu0,
    scenario_totals_eval (urgencyOf none) (by norm_num [urgencyOf])]

/-- C3 (amended): with subjects Math (hard) and History (easy),
`hours_per_day = 4`, `days = 2`, generating with any exam date — three days
away included — gives Math exactly the same total allocated share as
generating with no exam date: the urgency multiplier applies to every
subject alike and cancels in the proportional split. -/
theorem c3_exam_share_unchanged (δ : Option ℤ) :
    subjectShare (smart_generate_plan scenarioSubjects 4 2 δ []) "Math"
        = subjectShare (smart_generate_plan scenarioSubjects 4 2 none []) "Math"
    ∧ smart_generate_plan scenarioSubjects 4 2 δ []
        = smart_generate_plan scenarioSubjects 4 2 none [] := by
  have hpl := scenario_plans_eq δ
  exact ⟨by rw [hpl], hpl⟩

/-- C3 counterexample: with the exam set 3 days ahead, Math's total
allocated share is *not* strictly larger than without an exam date. -/
theorem c3_counterexample :
    ¬ (subjectShare (smart_generate_plan scenarioSubjects 4 2 (some 3) []) "Math"
        > subjectShare (smart_generate_plan scenarioSubjects 4 2 none []) "Math") := by
  rw [scenario_plans_eq (some 3)]
  exact lt_irrefl _


theorem plan_single_eval :
    smart_generate_plan [⟨"Math", some "hard"⟩] 2 1 none []
      = [("Day 1", [⟨"Math", 2, "Summarize key formulas"⟩])] := by
  have hnote : pick_focus_note "Math" = "Summarize key formulas" := by decide
  have hlbl : dayLabel 1 = "Day 1" := by decide
  have hb1 : ("hard" == "easy") = false := rfl
  have hb2 : ("hard" == "medium") = false := rfl
  have hb3 : ("hard" == "hard") = true := rfl
  norm_num [smart_generate_plan, planFromScores, planFromTotals, scoresFor,
    scoreOf, urgencyOf, weights, subjTotals, dictInsert, dictGet,
    dictSet, stableSort, sortedInsert, daysLoop, dayTasks,
    processSubjects, round2, round_eq, List.lookup, hnote, hlbl, hb1, hb2, hb3]

theorem c1_witness :
    (0:ℚ) < 2 ∧ (1:ℕ) ≤ 1
    ∧ tasksHours [⟨"Math", 2, "Summarize key formulas"⟩] ≤ 2 + 1/100 := by
  refine ⟨by norm_num, le_refl 1, ?_⟩
  exact c1_daily_budget_bound [⟨"Math", some "hard"⟩] 2 1 none [] (by norm_num)
    (le_refl 1) "Day 1" [⟨"Math", 2, "Summarize key formulas"⟩]
    (by rw [plan_single_eval]; exact List.mem_singleton.mpr rfl)

theorem plan_zero_hours_eval :
    smart_generate_plan [⟨"Math", some "hard"⟩] 0 1 none [] = [("Day 1", [])] := by
  have hb1 : ("hard" == "easy") = false := rfl
  have hb2 : ("hard" == "medium") = false := rfl
  have hb3 : ("hard" == "hard") = true := rfl
  have hlbl : dayLabel 1 = "Day 1" := by decide
  norm_num [smart_generate_plan, planFromScores, planFromTotals, scoresFor,
    scoreOf, urgencyOf, weights, subjTotals, dictInsert, dictGet,
    dictSet, stableSort, sortedInsert, daysLoop, dayTasks,
    processSubjects, round2, round_eq, List.lookup, hlbl, hb1, hb2, hb3]

/-- C2 counterexample: called with `hours_per_day = 0 ≤ 0` (and a
non-empty subject list), generation does not fail: no error is shown and
both a plan and a fresh progress ledger are produced. -/
theorem c2_counterexample :
    (generateHandler [⟨"Math", some "hard"⟩] 0 1 none [] ⟨none, []⟩).2 = false
    ∧ (generateHandler [⟨"Math", some "hard"⟩] 0 1 none [] ⟨none, []⟩).1.plans
        = some [("Day 1", [])]
    ∧ (generateHandler [⟨"Math", some "hard"⟩] 0 1 none [] ⟨none, []⟩).1.progress
        = [⟨"Day 1", [], false, none⟩] := by
  refine ⟨?_, ?_, ?_⟩ <;>
    simp [generateHandler, plan_zero_hours_eval, progressFromPlan]

theorem c2_witness :
    generateHandler [] 1 1 none [] ⟨none, []⟩ = (⟨none, []⟩, true) :=
  (c2_generation_error_iff_empty [] 1 1 none [] ⟨none, []⟩).2.1 rfl

/-- C5 counterexample: the first complete of "Day 1" updates the entry
and returns streak `current = 1`; a second complete of the already-completed
day produces no error value at all — the control is simply not offered and
nothing changes. -/
theorem c5_counterexample :
    completeDay [⟨"Day 1", [⟨"Math", 2, "n"⟩], false, none⟩] ⟨0, 0⟩ "Day 1" "t0"
        = ([⟨"Day 1", [⟨"Math", 2, "n"⟩], true, some "t0"⟩], ⟨1, 1⟩,
            CompleteOutcome.updated ⟨1, 1⟩)
    ∧ completeDay [⟨"Day 1", [⟨"Math", 2, "n"⟩], true, some "t0"⟩] ⟨1, 1⟩ "Day 1" "t1"
        = ([⟨"Day 1", [⟨"Math", 2, "n"⟩], true, some "t0"⟩], ⟨1, 1⟩,
            CompleteOutcome.notOffered) :=
  ⟨rfl, rfl⟩

theorem c5_witness :
    completeDay [⟨"Day 1", [⟨"Math", 2, "n"⟩], true, some "t0"⟩] ⟨1, 1⟩ "Day 1" "t1"
      = ([⟨"Day 1", [⟨"Math", 2, "n"⟩], true, some "t0"⟩], ⟨1, 1⟩,
          CompleteOutcome.notOffered) :=
  c5_completed_day_not_offered _ _ _ _
    ⟨"Day 1", [⟨"Math", 2, "n"⟩], true, some "t0"⟩ rfl rfl

theorem c4_witness :
    (⟨"Day 1", [⟨"Math", 2, "n"⟩], false, none⟩ : Entry)
        ∈ [(⟨"Day 1", [⟨"Math", 2, "n"⟩], false, none⟩ : Entry),
           ⟨"Day 2", [⟨"History", 1, "m"⟩], false, none⟩]
    ∧ ([⟨"Math", (2:ℚ), "n"⟩] : List Task) ≠ []
    ∧ ledgerHours (skipDay
        [(⟨"Day 1", [⟨"Math", 2, "n"⟩], false, none⟩ : Entry),
         ⟨"Day 2", [⟨"History", 1, "m"⟩], false, none⟩]
        ⟨"Day 1", [⟨"Math", 2, "n"⟩], false, none⟩)
      = ledgerHours
        [(⟨"Day 1", [⟨"Math", 2, "n"⟩], false, none⟩ : Entry),
         ⟨"Day 2", [⟨"History", 1, "m"⟩], false, none⟩] :=
  ⟨List.mem_cons_self _ _, List.cons_ne_nil _ _,
    c4_skip_conserves_hours _ _ (List.mem_cons_self _ _) (List.cons_ne_nil _ _)⟩

theorem c7_witness :
    (⟨"Day 1", [⟨"Math", 2, "n"⟩], false, none⟩ : Entry)
        ∈ [(⟨"Day 1", [⟨"Math", 2, "n"⟩], false, none⟩ : Entry),
           ⟨"Day 2", [⟨"History", 1, "m"⟩], false, none⟩]
    ∧ skipDay
        [(⟨"Day 1", [⟨"Math", 2, "n"⟩], false, none⟩ : Entry),
         ⟨"Day 2", [⟨"History", 1, "m"⟩], false, none⟩]
        ⟨"Day 1", [⟨"Math", 2, "n"⟩], false, none⟩
      = (([(⟨"Day 1", [⟨"Math", 2, "n"⟩], false, none⟩ : Entry),
           ⟨"Day 2", [⟨"History", 1, "m"⟩], false, none⟩].map
            (fun en => if en.day = nextLabel "Day 1"
              then { en with tasks := en.tasks ++ [⟨"Math", 2, "n"⟩] } else en)).erase
          ⟨"Day 1", [⟨"Math", 2, "n"⟩], false, none⟩) := by
  refine ⟨List.mem_cons_self _ _, ?_⟩
  exact (c7_skip_restructure _ _ (List.mem_cons_self _ _) (List.cons_ne_nil _ _)
    (by decide)).2.1 ⟨"Day 2", [⟨"History", 1, "m"⟩], false, none⟩
    (List.mem_cons_of_mem _ (List.mem_cons_self _ _)) (by decide)

theorem c8_witness :
    ((0:ℤ) ≤ 0) ∧ ((0:ℤ) ≤ 0)
    ∧ ((streakUpdate^[2] ⟨0, 0⟩).current ≤ (streakUpdate^[2] ⟨0, 0⟩).best
        ∧ (streakUpdate^[2 + 1] ⟨0, 0⟩).current = (streakUpdate^[2] ⟨0, 0⟩).current + 1
        ∧ (streakUpdate^[2 + 1] ⟨0, 0⟩).best
            = max (streakUpdate^[2] ⟨0, 0⟩).best ((streakUpdate^[2] ⟨0, 0⟩).current + 1)
        ∧ 0 ≤ (streakUpdate^[2] ⟨0, 0⟩).current) :=
  ⟨le_refl 0, le_refl 0, c8_streak_invariant ⟨0, 0⟩ (le_refl 0) (le_refl 0) 2⟩

theorem c9_witness :
    ([⟨"Math", some "hard"⟩] : List Subject) ≠ [] ∧ (0:ℚ) < 3 ∧ (1:ℕ) ≤ 2
    ∧ ((smart_generate_plan [⟨"Math", some "hard"⟩] 3 2 none []).map Prod.fst
        = (List.range 2).map (fun k => dayLabel (k + 1))
      ∧ ((smart_generate_plan [⟨"Math", some "hard"⟩] 3 2 none []).map Prod.fst).Nodup) := by
  refine ⟨List.cons_ne_nil _ _, by norm_num, by norm_num, ?_⟩
  exact c9_day_coverage [⟨"Math", some "hard"⟩] 3 2 none [] (List.cons_ne_nil _ _)
    (by norm_num) (by norm_num)

theorem c6_witness :
    0 < scoreOf ⟨"Math", some "hard"⟩ (some 3) ["Math"]
    ∧ scoreOf ⟨"Math", some "hard"⟩ (some 3) ["Math"]
        = specBaseWeight "hard" * specUrgency (some 3) * specBoost "Math" ["Math"] :=
  ⟨(c6_score_formula ⟨"Math", some "hard"⟩ (some 3) ["Math"]).1,
   (c6_score_formula ⟨"Math", some "hard"⟩ (some 3) ["Math"]).2 "hard" rfl
     (Or.inr (Or.inr rfl))⟩

theorem c10_witness :
    scoreOf ⟨"Chemistry", some "weird"⟩ none []
      = scoreOf ⟨"Chemistry", some "medium"⟩ none [] :=
  (c10_unknown_difficulty [] 1 1 none []).2 ⟨"Chemistry", some "weird"⟩
    (fun v hv => by injection hv with h; subst h; decide)


theorem dayLabel_eval :
    dayLabel 1 = "Day 1" ∧ dayLabel 2 = "Day 2" ∧ dayLabel 12 = "Day 12"
      ∧ nextLabel "Day 3" = "Day 4" ∧ nextLabel "weird" = "weird (tasks appended)" := by
  refine ⟨by decide, by decide, by decide, by decide, by decide⟩

end App
